import Mathlib

/-!
Verification of the work-coordination and data-integrity engine of the
two-sided model-file library manager.  The Python services are shallowly
embedded as pure Lean functions over explicit database / filesystem state:

* `app/services/differ.py`   → `computeDiff` and its status logic
* `app/services/indexer.py`  → `scanSide`
* `app/services/worker.py`   → the dispatch chain of `_process_task`
* `app/services/source_manager.py` → the `source_urls` table operations
* `app/services/remote.py`   → `enableSession` / `endSession`
* `app/routers/remote_assets.py` → `resolveAsset`
* `app/services/hasher.py`   → the head+tail digest of `compute_partial_hash_sync`
* `app/services/dedupe.py`   → `dedupeExecute`
* `app/services/downloader.py` → the per-job retry loop of `_run_job`
* queue rows and the single worker → a small transition system

SQLite rows become structures, `NULL`able columns become `Option`, dict
lookups become association-list lookups with the same overwrite behaviour,
and each `async` method becomes a state-passing function.
-/

namespace MM

/-- The two managed roots: the working root and the archival root
(`side ∈ {local, lake}` in the schema; `local` is a Lean keyword, so the
constructor is named `loc`). -/
inductive Side
  | loc
  | lake
deriving DecidableEq, Repr

/-! ## Differ (`app/services/differ.py`) -/

/-- One side's view of an indexed file, as selected by `compute_diff`
(`SELECT relpath, size, mtime_ns, hash FROM file_index WHERE side = …`). -/
structure FileRec where
  relpath : String
  size : Nat
  mtimeNs : Nat
  hash : Option String
deriving DecidableEq, Repr

/-- Diff status values of `DiffEntry.status`. -/
inductive DiffStatus
  | onlyLocal
  | onlyLake
  | same
  | probableSame
  | conflict
deriving DecidableEq, Repr

/-- `DiffEntry` of `differ.py` (pydantic model). -/
structure DiffEntry where
  relpath : String
  status : DiffStatus
  localSize : Option Nat := none
  localMtimeNs : Option Nat := none
  localHash : Option String := none
  lakeSize : Option Nat := none
  lakeMtimeNs : Option Nat := none
  lakeHash : Option String := none
deriving DecidableEq, Repr

/-- Python dict comprehension `{row["relpath"]: dict(row) for row in rows}`:
a later row with the same key overwrites an earlier one, so lookup finds the
last matching row. -/
def dictGet (files : List FileRec) (rp : String) : Option FileRec :=
  files.reverse.find? (fun f => f.relpath == rp)

/-- Insertion into a ≤-sorted list of strings, used to embed Python's
`sorted(...)` on the relpath set. -/
def insertSorted (s : String) : List String → List String
  | [] => [s]
  | t :: ts => if s ≤ t then s :: t :: ts else t :: insertSorted s ts

/-- Embedding of `sorted(...)` over a list of strings (insertion sort). -/
def sortStrings (l : List String) : List String :=
  l.foldr insertSorted []

/-- `sorted(set(local_files.keys()) | set(lake_files.keys()))`. -/
def allRelpaths (localFiles lakeFiles : List FileRec) : List String :=
  sortStrings ((localFiles.map (·.relpath) ++ lakeFiles.map (·.relpath)).dedup)

/-- The status chosen by `compute_diff` when a relpath exists on both sides,
mirroring the branch structure of `differ.py` lines 96–114 (including the
redundant `size`/`mtime` comparison in the hashes-pending arm). -/
def bothStatus (localF lakeF : FileRec) : DiffStatus :=
  match localF.hash, lakeF.hash with
  | some lh, some kh => if lh = kh then .same else .conflict
  | some _, none => if localF.size ≠ lakeF.size then .conflict
      else if localF.size = lakeF.size ∧ localF.mtimeNs = lakeF.mtimeNs then .probableSame
      else .probableSame
  | none, _ => if localF.size ≠ lakeF.size then .conflict
      else if localF.size = lakeF.size ∧ localF.mtimeNs = lakeF.mtimeNs then .probableSame
      else .probableSame

/-- The `DiffEntry` emitted for one relpath; `none` corresponds to the
unreachable `assert local and lake` arm. -/
def entryFor (rp : String) : Option FileRec → Option FileRec → Option DiffEntry
  | some lf, none => some
      { relpath := rp, status := .onlyLocal, localSize := some lf.size,
        localMtimeNs := some lf.mtimeNs, localHash := lf.hash }
  | none, some kf => some
      { relpath := rp, status := .onlyLake, lakeSize := some kf.size,
        lakeMtimeNs := some kf.mtimeNs, lakeHash := kf.hash }
  | some lf, some kf => some
      { relpath := rp, status := bothStatus lf kf, localSize := some lf.size,
        localMtimeNs := some lf.mtimeNs, localHash := lf.hash,
        lakeSize := some kf.size, lakeMtimeNs := some kf.mtimeNs,
        lakeHash := kf.hash }
  | none, none => none

/-- `compute_diff` of `differ.py`: one entry per relpath present on at least
one side, in sorted relpath order. -/
def computeDiff (localFiles lakeFiles : List FileRec) : List DiffEntry :=
  (allRelpaths localFiles lakeFiles).filterMap
    (fun rp => entryFor rp (dictGet localFiles rp) (dictGet lakeFiles rp))

/-- The status table exactly as the specification states it (§4.5): used to
compare the code's status logic against the spec's words. -/
def specStatusTable : Option FileRec → Option FileRec → Option DiffStatus
  | some _, none => some .onlyLocal
  | none, some _ => some .onlyLake
  | some lf, some kf =>
      match lf.hash, kf.hash with
      | some lh, some kh => some (if lh = kh then .same else .conflict)
      | _, _ => some (if lf.size ≠ kf.size then .conflict else .probableSame)
  | none, none => none

/-! ## Indexer (`app/services/indexer.py`) -/

/-- A file captured by the `os.walk` phase of `IndexerService.scan_side`:
`(relpath, size, mtime_ns)` with `relpath` slash-normalized. -/
structure WalkedFile where
  relpath : String
  size : Nat
  mtimeNs : Nat
deriving DecidableEq, Repr

/-- A row of the `file_index` table. -/
structure IndexRow where
  side : Side
  relpath : String
  size : Nat
  mtimeNs : Nat
  hash : Option String
  hashComputedAt : Option String
  indexedAt : String
deriving DecidableEq, Repr

/-- The `SELECT hash, hash_computed_at FROM file_index WHERE side = ? AND
relpath = ? AND size = ? AND mtime_ns = ?` probe of `scan_side`, followed by
the `if existing and existing["hash"]` truthiness test.  It runs against the
table state *inside the open transaction*, i.e. after the per-side `DELETE`
has already been applied on the same connection. -/
def hashProbe (table : List IndexRow) (side : Side) (f : WalkedFile) :
    Option (String × Option String) :=
  match table.find? (fun r => r.side == side && r.relpath == f.relpath &&
      r.size == f.size && r.mtimeNs == f.mtimeNs) with
  | some r =>
    match r.hash with
    | some h => some (h, r.hashComputedAt)
    | none => none
  | none => none

/-- One iteration of the insert loop of `scan_side`: probe for a reusable
hash in the current table state, then `INSERT` the new row. -/
def scanInsert (side : Side) (now : String) (table : List IndexRow)
    (f : WalkedFile) : List IndexRow :=
  match hashProbe table side f with
  | some (h, hca) =>
    table ++ [{ side := side, relpath := f.relpath, size := f.size,
                mtimeNs := f.mtimeNs, hash := some h, hashComputedAt := hca,
                indexedAt := now }]
  | none =>
    table ++ [{ side := side, relpath := f.relpath, size := f.size,
                mtimeNs := f.mtimeNs, hash := none, hashComputedAt := none,
                indexedAt := now }]

/-- `IndexerService.scan_side`: `DELETE FROM file_index WHERE side = ?`, then
re-insert every walked file, probing for a preserved hash against the
connection's current (post-`DELETE`) table state. -/
def scanSide (side : Side) (now : String) (walked : List WalkedFile)
    (table : List IndexRow) : List IndexRow :=
  let cleared := table.filter (fun r => ¬ (r.side = side))
  walked.foldl (scanInsert side now) cleared

/-- What §4.4 of the specification says the re-population does: the probe for
an existing hash consults the table state from *before* the per-side delete,
so a file whose `(relpath, size, mtime_ns)` triple is unchanged keeps its
hash.  (The spec-side twin of `scanSide`, used to exhibit the divergence.) -/
def scanSideSpec (side : Side) (now : String) (walked : List WalkedFile)
    (table : List IndexRow) : List IndexRow :=
  let cleared := table.filter (fun r => ¬ (r.side = side))
  cleared ++ walked.map (fun f =>
    match hashProbe table side f with
    | some (h, hca) =>
      { side := side, relpath := f.relpath, size := f.size, mtimeNs := f.mtimeNs,
        hash := some h, hashComputedAt := hca, indexedAt := now }
    | none =>
      { side := side, relpath := f.relpath, size := f.size, mtimeNs := f.mtimeNs,
        hash := none, hashComputedAt := none, indexedAt := now })

/-! ## Source registry (`app/services/source_manager.py`) -/

/-- A row of the `source_urls` table minus its key (`url, added_at, notes,
filename_hint, relpath`); the key is carried separately since `key` is
`UNIQUE`. -/
structure SourceRow where
  url : String
  addedAt : String
  notes : Option String
  filenameHint : Option String
  relpath : Option String
deriving DecidableEq, Repr

/-- The `source_urls` table: association list keyed by the `UNIQUE` `key`
column. -/
abbrev SourceTable : Type := List (String × SourceRow)

/-- `SELECT … FROM source_urls WHERE key = ?` (`SourceManager.get_source`). -/
def getSource (db : SourceTable) (key : String) : Option SourceRow :=
  (List.find? (fun kv => kv.1 == key) db).map (·.2)

/-- `INSERT OR REPLACE INTO source_urls` at a given key: the old row with the
key (if any) is replaced. -/
def upsertSource (db : SourceTable) (key : String) (row : SourceRow) : SourceTable :=
  (key, row) :: List.filter (fun kv => ¬ (kv.1 = key)) db

/-- `DELETE FROM source_urls WHERE key = ?`. -/
def deleteSourceKey (db : SourceTable) (key : String) : SourceTable :=
  List.filter (fun kv => ¬ (kv.1 = key)) db

/-- `SourceManager.migrate_relpath_to_hash`: if a `relpath:<path>` row exists,
re-insert its payload under the hash key (`relpath` column set to `NULL`) and
delete the relpath-keyed row. -/
def migrateRelpathToHash (db : SourceTable) (relpath fileHash : String) : SourceTable :=
  let oldKey := "relpath:" ++ relpath
  match getSource db oldKey with
  | some row =>
    deleteSourceKey
      (upsertSource db fileHash
        { url := row.url, addedAt := row.addedAt, notes := row.notes,
          filenameHint := row.filenameHint, relpath := none })
      oldKey
  | none => db

/-! ## Worker dispatch (`app/services/worker.py`) -/

/-- Task types accepted by the `queue` table's `CHECK` constraint. -/
inductive TaskType
  | copy
  | move
  | delete
  | verify
  | dedupeScan
  | hashFile
deriving DecidableEq, Repr

/-- Queue task statuses. -/
inductive TaskStatus
  | pending
  | running
  | completed
  | failed
  | cancelled
deriving DecidableEq, Repr

/-- The branches of the `if task["task_type"] == …` dispatch chain of
`QueueWorker._process_task` (lines 112–143): the chain tests `copy`,
`delete`, `verify` and `dedupe_scan`, in that order, and has no arm for any
other task type. -/
inductive DispatchBranch
  | copyBranch
  | deleteBranch
  | verifyBranch
  | dedupeScanBranch
deriving DecidableEq, Repr

/-- Which branch of `_process_task`'s dispatch chain a task type selects;
`none` when the chain falls through without executing anything. -/
def dispatchBranch : TaskType → Option DispatchBranch
  | .copy => some .copyBranch
  | .delete => some .deleteBranch
  | .verify => some .verifyBranch
  | .dedupeScan => some .dedupeScanBranch
  | _ => none

/-- The persistent state touched by a `hash_file` task according to the
specification: the file-index rows and the source-url table, plus the task's
own queue row. -/
structure WorkerDb where
  fileIndex : List IndexRow
  sourceUrls : List (String × SourceRow)
  taskStatus : TaskStatus
deriving DecidableEq, Repr

/-- `QueueWorker._process_task` on a task whose type selects no branch of
the dispatch chain (`dispatchBranch ty = none`): the row is marked
`running`, no branch body runs, and the row is marked `completed`.  The
file index and source-url table are untouched. -/
def processNoBranchTask (st : WorkerDb) : WorkerDb :=
  let running := { st with taskStatus := TaskStatus.running }
  { running with taskStatus := TaskStatus.completed }

/-! ## Remote session (`app/services/remote.py`) -/

/-- A remote task held by the in-memory session (schema
`app/schemas/remote_task.py`; payload and metadata are irrelevant to the
session-lifecycle claims and abstracted to the id/status pair). -/
structure RemoteTask where
  id : String
  status : String
deriving DecidableEq, Repr

/-- The in-memory state of `RemoteSessionManager`. -/
structure SessionState where
  apiKey : Option String
  expiresAt : Option Nat
  agentConnected : Bool
  agentInfo : List (String × String)
  lastHeartbeat : Option Nat
  tasks : List RemoteTask
deriving DecidableEq, Repr

/-- `RemoteSessionManager.enable_session`: store the freshly generated
URL-safe key, set `expires_at = now + timedelta(minutes=ttl)` (time in
seconds), and reset the agent fields.  The method body touches no other
field. -/
def enableSession (st : SessionState) (freshKey : String) (now ttlMinutes : Nat) :
    SessionState :=
  { st with
    apiKey := some freshKey,
    expiresAt := some (now + 60 * ttlMinutes),
    agentConnected := false,
    agentInfo := [],
    lastHeartbeat := none }

/-- `RemoteSessionManager.end_session`: clear every field including the task
list. -/
def endSession (_st : SessionState) : SessionState :=
  { apiKey := none, expiresAt := none, agentConnected := false,
    agentInfo := [], lastHeartbeat := none, tasks := [] }

/-! ## Asset resolver (`app/routers/remote_assets.py`) -/

/-- `AssetSource` pydantic model. -/
structure AssetSource where
  url : String
  srcType : String
  priority : Nat
deriving DecidableEq, Repr

/-- `resolve_asset`: a `web` source from the hash-keyed registry row, then a
`local` stream URL when the file exists under the Local root, then a `lake`
stream URL when it exists under the Lake root.  `localFs` / `lakeFs` list
the relpaths present under each root; `baseUrl` is
`settings.remote_base_url.rstrip("/")`. -/
def resolveAsset (db : SourceTable) (localFs lakeFs : List String)
    (baseUrl : String) (hash : String) (relpath : Option String) :
    List AssetSource :=
  let webSources :=
    match getSource db hash with
    | some m => [AssetSource.mk m.url ("web") 1]
    | none => []
  let streamSources :=
    match relpath with
    | none => []
    | some rp =>
      (if rp ∈ localFs then
        [AssetSource.mk (baseUrl ++ "/api/remote/assets/file?side=local&relpath=" ++ rp)
          "local" 2]
      else []) ++
      (if rp ∈ lakeFs then
        [AssetSource.mk (baseUrl ++ "/api/remote/assets/file?side=lake&relpath=" ++ rp)
          "lake" 3]
      else [])
  webSources ++ streamSources

/-! ## Hasher (`app/services/hasher.py`) -/

/-- `4 * 1024 * 1024`, the chunk size of `compute_partial_hash_sync`. -/
def fourMiB : Nat := 4 * 1024 * 1024

/-- The byte sequence fed to the digest by `compute_partial_hash_sync`:
`start_chunk = f.read(4MiB)`; then, when `size > len(start_chunk)`, seek to
`max(len(start_chunk), size - 4MiB)` and read another 4 MiB. -/
def headTailDigestInput (content : List Nat) : List Nat :=
  let startChunk := content.take fourMiB
  if content.length > startChunk.length then
    let seekPos := max startChunk.length (content.length - fourMiB)
    startChunk ++ (content.drop seekPos).take fourMiB
  else
    startChunk

/-- `compute_partial_hash_sync` with the digest primitive abstracted: the
hasher is updated with the head chunk and then the tail chunk, so the result
is the digest of their concatenation. -/
def computeHeadTailHash (digest : List Nat → String) (content : List Nat) : String :=
  digest (headTailDigestInput content)

/-- The fast-mode arm of `HasherService.get_hash` on a cache miss:
`hash_value = f"fast:{raw_hash}"` where `raw_hash` is the partial digest. -/
def getHashFastValue (digest : List Nat → String) (content : List Nat) : String :=
  "fast:" ++ computeHeadTailHash digest content

/-! ## Dedupe execute (`app/services/dedupe.py`) -/

/-- A `dedupe_files` row joined with its group's side, as selected by
`DedupeService.execute` (`SELECT g.side, f.relpath, f.size … WHERE
g.scan_id = ?`), plus the row's stored `keep` flag. -/
structure DedupeFileRow where
  side : Side
  relpath : String
  size : Nat
  keep : Bool
deriving DecidableEq, Repr

/-- A selection passed to `POST /api/dedupe/execute`: `(group_id,
keep_relpath)`. -/
structure DedupeSelection where
  groupId : Nat
  keepRelpath : String
deriving DecidableEq, Repr

/-- Result of `DedupeService.execute`. -/
structure DedupeResult where
  deleted : Nat
  freedBytes : Nat
  errors : List String
  disk : List (Side × String)
deriving DecidableEq, Repr

/-- `filepath.unlink()` against the modelled filesystem (the set of
`(side, relpath)` pairs present on disk): succeeds iff the file exists. -/
def unlinkFile (disk : List (Side × String)) (side : Side) (relpath : String) :
    Option (List (Side × String)) :=
  if (side, relpath) ∈ disk then
    some (disk.filter (fun p => ¬ (p = (side, relpath))))
  else
    none

/-- One iteration of the deletion loop of `DedupeService.execute`: skip the
file when its relpath is in the keep set, otherwise unlink it, counting a
success or recording an error. -/
def dedupeStep (keepSet : List String) (acc : DedupeResult) (f : DedupeFileRow) :
    DedupeResult :=
  if f.relpath ∈ keepSet then acc
  else
    match unlinkFile acc.disk f.side f.relpath with
    | some disk' =>
      { acc with
        deleted := acc.deleted + 1,
        freedBytes := acc.freedBytes + f.size,
        disk := disk' }
    | none => { acc with errors := acc.errors ++ [f.relpath] }

/-- `DedupeService.execute`: build `keep_set = {s.keep_relpath for s in
selections}` and delete every file of the scan whose relpath is not in it,
regardless of the stored `keep` flags and of the selections' group ids. -/
def dedupeExecute (scanFiles : List DedupeFileRow) (selections : List DedupeSelection)
    (disk : List (Side × String)) : DedupeResult :=
  let keepSet := selections.map (·.keepRelpath)
  scanFiles.foldl (dedupeStep keepSet)
    { deleted := 0, freedBytes := 0, errors := [], disk := disk }

/-! ## Downloader retry loop (`app/services/downloader.py`) -/

/-- The mutable fields of a `DownloadJob` that `_run_job` manipulates.
`tempBytes` is the content of `temp_path` (`none` when the partial file does
not exist); `destBytes` the content of `dest_path`. -/
structure DlJob where
  status : String
  errorMessage : Option String
  attempts : Nat
  bytesDownloaded : Nat
  totalBytes : Option Nat
  tempBytes : Option (List Nat)
  destBytes : Option (List Nat)
  cancelled : Bool
deriving DecidableEq, Repr

/-- What one `GET` of the retry loop encounters on the network: a per-read
stall (`requests.exceptions.ReadTimeout`), a reset
(`requests.exceptions.ConnectionError`), or a response with a status code,
a body (the bytes streamed before clean EOF) and an optional
`Content-Length`. -/
inductive NetEvent
  | readTimeout
  | connectionReset
  | response (statusCode : Nat) (body : List Nat) (contentLength : Option Nat)
deriving DecidableEq, Repr

/-- The resume offset computed at the top of each attempt:
`temp_path.stat().st_size if temp_path.exists() else 0`; the request carries
`Range: bytes=offset-` exactly when this is positive. -/
def resumeOffset (job : DlJob) : Nat :=
  match job.tempBytes with
  | some bs => bs.length
  | none => 0

/-- One iteration of the `while not job.cancelled` loop of `_run_job`, given
the network event the attempt runs into.  Returns the job state and whether
the loop continues (`false` when the body executed a `return`). -/
def runAttempt (job : DlJob) (ev : NetEvent) : DlJob × Bool :=
  let j := { job with
             attempts := job.attempts + 1,
             status := "running",
             errorMessage := none }
  let offset := resumeOffset j
  match ev with
  | .readTimeout => ({ j with errorMessage := some ("stall_timeout") }, true)
  | .connectionReset => ({ j with errorMessage := some ("connection_error") }, true)
  | .response statusCode body contentLength =>
    if statusCode ≥ 400 then
      ({ j with
         status := "failed",
         errorMessage := some ("HTTP " ++ toString statusCode) }, false)
    else
      let priorBytes := if offset > 0 ∧ statusCode = 200 then [] else
        (j.tempBytes.getD [])
      let effOffset := priorBytes.length
      let total := contentLength.map (· + effOffset)
      let temp' := priorBytes ++ body
      let j' := { j with
                  totalBytes := total,
                  bytesDownloaded := effOffset + body.length,
                  tempBytes := some temp' }
      match total with
      | some t =>
        if effOffset + body.length ≥ t then
          ({ j' with
             status := "completed",
             tempBytes := none,
             destBytes := some temp' }, false)
        else
          (j', true)
      | none =>
        ({ j' with
           status := "completed",
           tempBytes := none,
           destBytes := some temp' }, false)

/-- The retry loop of `_run_job`, driven by the list of network events the
successive attempts encounter.  An empty event list leaves the job mid-loop;
a `false` continuation flag stops immediately (terminal `return`). -/
def runJob (job : DlJob) : List NetEvent → DlJob
  | [] => job
  | ev :: evs =>
    if job.cancelled then { job with status := "cancelled" }
    else
      let (j, continues) := runAttempt job ev
      if continues then runJob j evs else j

/-- A sample in-flight job (used to instantiate the retry-loop theorem). -/
def sampleDlJob : DlJob :=
  { status := "queued", errorMessage := none, attempts := 0,
    bytesDownloaded := 2, totalBytes := some 10, tempBytes := some [1, 2],
    destBytes := none, cancelled := false }

/-! ## Queue rows and the single worker (`app/services/worker.py`,
`app/services/queue.py`, `app/main.py`) -/

/-- A queue row reduced to what the single-running invariant concerns. -/
structure QRow where
  id : Nat
  status : TaskStatus
deriving DecidableEq, Repr

/-- Queue state: the `queue` table plus the worker's in-flight task
(`QueueWorker._current_task_id`, `none` while the worker loop is between
tasks). -/
structure QState where
  rows : List QRow
  current : Option Nat
deriving DecidableEq, Repr

/-- Mark one row's status (the `UPDATE queue SET status = … WHERE id = ?`
statements). -/
def setStatus (rows : List QRow) (id : Nat) (st : TaskStatus) : List QRow :=
  rows.map (fun r => if r.id = id then { r with status := st } else r)

/-- Count of rows with `status = running`. -/
def runningCount (rows : List QRow) : Nat :=
  (rows.filter (fun r => r.status = TaskStatus.running)).length

/-- The transitions of the queue subsystem: enqueue operations insert
`pending` rows (`QueueService.enqueue_*`), UI cancellation flips
`pending`/`running` rows to `cancelled` (`cancel_task`, `cancel_all_tasks`),
removal deletes a `pending` row (`remove_task`), and the single worker
first marks its selected `pending` row `running`
(`_process_task` lines 100–107) and later drives that same row to a
terminal status (lines 145–182) before selecting another. -/
inductive QStep : QState → QState → Prop
  | enqueue (s : QState) (id : Nat)
      (hfresh : id ∉ s.rows.map QRow.id) :
      QStep s { s with rows := s.rows ++ [{ id := id, status := TaskStatus.pending }] }
  | cancel (s : QState) (id : Nat) (r : QRow) (hr : r ∈ s.rows) (hid : r.id = id)
      (hst : r.status = TaskStatus.pending ∨ r.status = TaskStatus.running) :
      QStep s { s with rows := setStatus s.rows id TaskStatus.cancelled }
  | cancelAll (s : QState) :
      QStep s { s with rows := s.rows.map (fun r =>
        if r.status = TaskStatus.pending ∨ r.status = TaskStatus.running then
          { r with status := TaskStatus.cancelled } else r) }
  | remove (s : QState) (id : Nat) :
      QStep s { s with rows := s.rows.filter (fun r =>
        ¬ (r.id = id ∧ r.status = TaskStatus.pending)) }
  | workerPick (s : QState) (r : QRow) (hr : r ∈ s.rows)
      (hidle : s.current = none) (hpending : r.status = TaskStatus.pending) :
      QStep s { rows := setStatus s.rows r.id TaskStatus.running,
                current := some r.id }
  | workerFinish (s : QState) (id : Nat) (final : TaskStatus)
      (hbusy : s.current = some id)
      (hfinal : final = TaskStatus.completed ∨ final = TaskStatus.failed ∨
                final = TaskStatus.cancelled) :
      QStep s { rows := setStatus s.rows id final, current := none }

/-- The startup reset of `lifespan` (`app/main.py` lines 40–53):
`UPDATE queue SET status = 'pending' … WHERE status = 'running'`, before the
worker starts (so no task is in flight). -/
def startupReset (rows : List QRow) : QState :=
  { rows := rows.map (fun r =>
      if r.status = TaskStatus.running then { r with status := TaskStatus.pending } else r),
    current := none }

/-- States reachable from a startup reset of an arbitrary persisted table
with unique row ids, via any interleaving of queue transitions. -/
inductive QReachable : QState → Prop
  | startup (rows : List QRow) (hids : (rows.map QRow.id).Nodup) :
      QReachable (startupReset rows)
  | step (s s' : QState) (hs : QReachable s) (hstep : QStep s s') : QReachable s'

/-- The single-writer invariant: queue row ids are unique and every
`running` row is the worker's current task (hence there is at most one). -/
def QInv (s : QState) : Prop :=
  (s.rows.map QRow.id).Nodup ∧
  ∀ r ∈ s.rows, r.status = TaskStatus.running → s.current = some r.id

/-! ## Mirror planner (routers `queue.py` → `QueueService`) -/

/-- A planned mirror operation (an element of the plan's `copies` /
`deletes` lists), identified by its relpath and size. -/
structure PlanItem where
  relpath : String
  size : Nat
deriving DecidableEq, Repr

/-- The `MirrorPlan` response model of `app/routers/queue.py`. -/
structure MirrorPlan where
  copies : List PlanItem
  deletes : List PlanItem
  conflicts : List PlanItem
  totalCopyBytes : Nat
  totalDeleteBytes : Nat
deriving DecidableEq, Repr

/-- Size attributed to a diff entry on the source side (0 when absent). -/
def entrySrcSize (e : DiffEntry) : Nat := (e.localSize).getD 0

/-- Size attributed to a diff entry on the destination side (0 when absent). -/
def entryDstSize (e : DiffEntry) : Nat := (e.lakeSize).getD 0

/-- Modelled from the spec: `QueueService.create_mirror_plan` is called by
`POST /api/queue/mirror/plan` (`app/routers/queue.py` lines 125–138) but the
method itself is missing from the source tree.  Per §4.6, given the source
folder's and destination folder's file views it computes, from the Differ
view, the set of copies (`only_src`), deletes (`only_dst`) and conflicts,
and returns the lists together with byte totals. -/
def createMirrorPlan (srcView dstView : List FileRec) : MirrorPlan :=
  let d := computeDiff srcView dstView
  let copies := (d.filter (fun e => e.status = DiffStatus.onlyLocal)).map
    (fun e => PlanItem.mk e.relpath (entrySrcSize e))
  let deletes := (d.filter (fun e => e.status = DiffStatus.onlyLake)).map
    (fun e => PlanItem.mk e.relpath (entryDstSize e))
  let conflicts := (d.filter (fun e => e.status = DiffStatus.conflict)).map
    (fun e => PlanItem.mk e.relpath (entrySrcSize e))
  { copies := copies, deletes := deletes, conflicts := conflicts,
    totalCopyBytes := (copies.map PlanItem.size).sum,
    totalDeleteBytes := (deletes.map PlanItem.size).sum }

/-- A task enqueued by the mirror execute step. -/
inductive MirrorTask
  | copyTask (relpath : String)
  | deleteTask (relpath : String)
deriving DecidableEq, Repr

/-- Modelled from the spec: `QueueService.execute_mirror_plan` is called by
`POST /api/queue/mirror/execute` (`app/routers/queue.py` lines 141–149) but
the method itself is missing from the source tree.  Per §4.6 it enacts the
plan "by enqueueing all": one copy task per planned copy and one delete task
per planned delete (deletes skipped when `skip_deletes`), appended to the
queue in order. -/
def executeMirrorPlan (plan : MirrorPlan) (skipDeletes : Bool)
    (queue : List MirrorTask) : List MirrorTask :=
  queue ++ plan.copies.map (fun c => MirrorTask.copyTask c.relpath) ++
    (if skipDeletes then [] else plan.deletes.map (fun d => MirrorTask.deleteTask d.relpath))

/-! ## Helper lemmas -/

theorem mem_insertSorted {a s : String} {l : List String} :
    a ∈ insertSorted s l ↔ a = s ∨ a ∈ l := by
  induction l with
  | nil => simp [insertSorted]
  | cons t ts ih =>
    by_cases h : s ≤ t
    · simp [insertSorted, h]
    · simp only [insertSorted, if_neg h, List.mem_cons, ih]
      tauto

theorem nodup_insertSorted {s : String} {l : List String}
    (hs : s ∉ l) (hl : l.Nodup) : (insertSorted s l).Nodup := by
  induction l with
  | nil => simp [insertSorted]
  | cons t ts ih =>
    rcases List.nodup_cons.mp hl with ⟨htts, hts⟩
    have hst : s ∉ ts := fun hmem => hs (List.mem_cons_of_mem t hmem)
    simp only [insertSorted]
    by_cases h : s ≤ t
    · rw [if_pos h]
      exact List.nodup_cons.mpr ⟨hs, hl⟩
    · rw [if_neg h]
      refine List.nodup_cons.mpr ⟨?_, ih hst hts⟩
      intro hmem
      rcases mem_insertSorted.mp hmem with h1 | h1
      · refine hs ?_
        rw [← h1]
        exact List.mem_cons_self t ts
      · exact htts h1

theorem mem_sortStrings {a : String} {l : List String} :
    a ∈ sortStrings l ↔ a ∈ l := by
  induction l with
  | nil => simp [sortStrings]
  | cons t ts ih =>
    show a ∈ insertSorted t (sortStrings ts) ↔ _
    simp only [mem_insertSorted, List.mem_cons, ih]

theorem nodup_sortStrings {l : List String} (hl : l.Nodup) :
    (sortStrings l).Nodup := by
  induction l with
  | nil => simp [sortStrings]
  | cons t ts ih =>
    rcases List.nodup_cons.mp hl with ⟨htts, hts⟩
    exact nodup_insertSorted (fun hmem => htts (mem_sortStrings.mp hmem)) (ih hts)

theorem dictGet_isSome {files : List FileRec} {rp : String} :
    (dictGet files rp).isSome ↔ rp ∈ files.map FileRec.relpath := by
  unfold dictGet
  rw [List.find?_isSome]
  constructor
  · rintro ⟨f, hf, hrp⟩
    exact List.mem_map.mpr ⟨f, List.mem_reverse.mp hf, by simpa using hrp⟩
  · rintro hmem
    rcases List.mem_map.mp hmem with ⟨f, hf, hrp⟩
    exact ⟨f, List.mem_reverse.mpr hf, by simpa using hrp⟩

theorem mem_allRelpaths {localFiles lakeFiles : List FileRec} {rp : String} :
    rp ∈ allRelpaths localFiles lakeFiles ↔
      (dictGet localFiles rp).isSome ∨ (dictGet lakeFiles rp).isSome := by
  unfold allRelpaths
  rw [mem_sortStrings, List.mem_dedup, List.mem_append, dictGet_isSome, dictGet_isSome]

theorem nodup_allRelpaths (localFiles lakeFiles : List FileRec) :
    (allRelpaths localFiles lakeFiles).Nodup :=
  nodup_sortStrings (List.nodup_dedup _)

theorem entryFor_relpath {rp : String} {l k : Option FileRec} {e : DiffEntry}
    (h : entryFor rp l k = some e) : e.relpath = rp := by
  cases l <;> cases k <;> simp [entryFor] at h <;> simp [← h]

theorem filterMap_filter_relpath (f : String → Option DiffEntry)
    (hf : ∀ s e, f s = some e → e.relpath = s) (rp : String) :
    ∀ us : List String, us.Nodup →
      (us.filterMap f).filter (fun e => e.relpath == rp) =
        if rp ∈ us then (f rp).toList else [] := by
  intro us
  induction us with
  | nil => intro _; simp
  | cons u us ih =>
    intro hnd
    rcases List.nodup_cons.mp hnd with ⟨hu, hus⟩
    by_cases hur : u = rp
    · subst hur
      rw [if_pos (List.mem_cons_self u us)]
      cases hfu : f u with
      | none =>
        simp only [List.filterMap_cons, hfu]
        rw [ih hus, if_neg hu]
        rfl
      | some e =>
        have he : (e.relpath == u) = true := by
          rw [hf u e hfu]
          exact beq_self_eq_true u
        simp only [List.filterMap_cons, hfu, List.filter_cons, he, if_true]
        rw [ih hus, if_neg hu]
        rfl
    · have hiff : (rp ∈ u :: us) = (rp ∈ us) := by
        simp only [List.mem_cons]
        apply propext
        constructor
        · rintro (h1 | h1)
          · exact absurd h1.symm hur
          · exact h1
        · exact Or.inr
      simp only [hiff]
      cases hfu : f u with
      | none =>
        simp only [List.filterMap_cons, hfu]
        exact ih hus
      | some e =>
        have he : (e.relpath == rp) = false := by
          rw [hf u e hfu]
          exact beq_eq_false_iff_ne.mpr hur
        simp only [List.filterMap_cons, hfu, List.filter_cons, he]
        simpa using ih hus

theorem entryFor_status_spec (rp : String) (l k : Option FileRec) :
    (entryFor rp l k).map DiffEntry.status = specStatusTable l k := by
  cases l with
  | none =>
    cases k with
    | none => rfl
    | some kf => rfl
  | some lf =>
    cases k with
    | none => rfl
    | some kf =>
      simp only [entryFor, specStatusTable, Option.map_some, bothStatus]
      cases hlh : lf.hash with
      | some lh =>
        cases hkh : kf.hash with
        | some kh => rfl
        | none =>
          by_cases hsz : lf.size = kf.size
          · simp [hsz]
          · simp [hsz]
      | none =>
        by_cases hsz : lf.size = kf.size
        · simp [hsz]
        · simp [hsz]

/-! ## C6: diff status table -/

/-- C6: for every relpath present in the index on at least one side, the
Differ emits exactly one DiffEntry, and its status follows the spec's table:
`only_local` / `only_lake` when the file exists on exactly one side; when
both exist with both hashes present, `same` iff the hashes are equal, else
`conflict`; when either hash is missing, `conflict` iff the recorded sizes
differ, else `probable_same`. -/
theorem differ_emits_one_entry_with_spec_status
    (localFiles lakeFiles : List FileRec) (rp : String)
    (hpresent : (dictGet localFiles rp).isSome ∨ (dictGet lakeFiles rp).isSome) :
    ∃ s, specStatusTable (dictGet localFiles rp) (dictGet lakeFiles rp) = some s ∧
      ((computeDiff localFiles lakeFiles).filter
        (fun e => e.relpath == rp)).map DiffEntry.status = [s] := by
  have hmem : rp ∈ allRelpaths localFiles lakeFiles := mem_allRelpaths.mpr hpresent
  have hfilter := filterMap_filter_relpath
    (fun q => entryFor q (dictGet localFiles q) (dictGet lakeFiles q))
    (fun s e h => entryFor_relpath h) rp
    (allRelpaths localFiles lakeFiles) (nodup_allRelpaths localFiles lakeFiles)
  have hspec := entryFor_status_spec rp (dictGet localFiles rp) (dictGet lakeFiles rp)
  cases hent : entryFor rp (dictGet localFiles rp) (dictGet lakeFiles rp) with
  | none =>
    exfalso
    rcases hpresent with h | h
    · rcases Option.isSome_iff_exists.mp h with ⟨lf, hlf⟩
      rw [hlf] at hent
      cases hk : dictGet lakeFiles rp <;> rw [hk] at hent <;> simp [entryFor] at hent
    · rcases Option.isSome_iff_exists.mp h with ⟨kf, hkf⟩
      rw [hkf] at hent
      cases hk : dictGet localFiles rp <;> rw [hk] at hent <;> simp [entryFor] at hent
  | some e =>
    refine ⟨e.status, ?_, ?_⟩
    · rw [← hspec, hent]; rfl
    · unfold computeDiff
      rw [hfilter, if_pos hmem]
      show List.map DiffEntry.status
        (entryFor rp (dictGet localFiles rp) (dictGet lakeFiles rp)).toList = [e.status]
      rw [hent]
      rfl

/-! ## C1: rescan hash preservation -/

theorem hashProbe_none_of_no_side_hash {table : List IndexRow} {side : Side}
    {f : WalkedFile}
    (h : ∀ r ∈ table, r.side = side → r.hash = none) :
    hashProbe table side f = none := by
  unfold hashProbe
  cases hfind : table.find? (fun r => r.side == side && r.relpath == f.relpath &&
      r.size == f.size && r.mtimeNs == f.mtimeNs) with
  | none => rfl
  | some r =>
    have hmem := List.mem_of_find?_eq_some hfind
    have hpred := List.find?_some hfind
    have hside : r.side = side := by
      simp only [Bool.and_eq_true, beq_iff_eq] at hpred
      exact hpred.1.1.1
    simp [h r hmem hside]

theorem scanInsert_side_hash_none {side : Side} {now : String}
    {table : List IndexRow} {f : WalkedFile}
    (h : ∀ r ∈ table, r.side = side → r.hash = none) :
    ∀ r ∈ scanInsert side now table f, r.side = side → r.hash = none := by
  intro r hr hside
  unfold scanInsert at hr
  rw [hashProbe_none_of_no_side_hash h] at hr
  rcases List.mem_append.mp hr with h1 | h1
  · exact h r h1 hside
  · simp only [List.mem_singleton] at h1
    rw [h1]

theorem scanFold_side_hash_none (side : Side) (now : String)
    (walked : List WalkedFile) :
    ∀ table : List IndexRow, (∀ r ∈ table, r.side = side → r.hash = none) →
      ∀ r ∈ walked.foldl (scanInsert side now) table, r.side = side → r.hash = none := by
  induction walked with
  | nil =>
    intro table h
    simpa using h
  | cons f fs ih =>
    intro table h
    rw [List.foldl_cons]
    exact ih (scanInsert side now table f) (scanInsert_side_hash_none h)

/-- Every row the scan writes for the scanned side has a cleared hash: the
hash-preservation probe runs after the per-side `DELETE` inside the same
transaction, so it can never find a hashed row. -/
theorem scanSide_clears_every_hash (side : Side) (now : String)
    (walked : List WalkedFile) (table : List IndexRow) :
    ∀ r ∈ scanSide side now walked table, r.side = side → r.hash = none := by
  unfold scanSide
  apply scanFold_side_hash_none
  intro r hr hside
  rcases List.mem_filter.mp hr with ⟨_, hpred⟩
  exact absurd hside (by simpa using hpred)

/-- C1: the claim fails on the code.  Rescanning a side clears the hash of a
file whose `(relpath, size, mtime_ns)` triple is identical to the prior
scan, because `scan_side` deletes the side's rows before probing for an
existing hash on the same connection.  At the concrete failing input the
code (`scanSide`) clears the hash while the spec's re-population
(`scanSideSpec`) preserves it. -/
theorem rescan_loses_preserved_hash :
    scanSide Side.loc ("t1") [{ relpath := "a.bin", size := 10, mtimeNs := 5 }]
        [{ side := Side.loc, relpath := "a.bin", size := 10, mtimeNs := 5,
           hash := some ("aa"), hashComputedAt := some ("t0"), indexedAt := "t0" }] =
      [{ side := Side.loc, relpath := "a.bin", size := 10, mtimeNs := 5,
         hash := none, hashComputedAt := none, indexedAt := "t1" }] ∧
    scanSideSpec Side.loc ("t1") [{ relpath := "a.bin", size := 10, mtimeNs := 5 }]
        [{ side := Side.loc, relpath := "a.bin", size := 10, mtimeNs := 5,
           hash := some ("aa"), hashComputedAt := some ("t0"), indexedAt := "t0" }] =
      [{ side := Side.loc, relpath := "a.bin", size := 10, mtimeNs := 5,
         hash := some ("aa"), hashComputedAt := some ("t0"), indexedAt := "t1" }] :=
  ⟨by decide, by decide⟩

/-! ## C2: the hash_file task type -/

/-- C2: the claim fails on the code.  The dispatch chain of
`QueueWorker._process_task` has no arm for `hash_file`, so a queued
`hash_file` task is marked `completed` without computing or persisting any
hash and without touching the source registry; the migration the claim
describes (`migrateRelpathToHash`) exists but is never invoked — at the
failing input it would have re-keyed the mapping and deleted the
relpath-keyed row. -/
theorem hash_file_task_falls_through_dispatch :
    dispatchBranch TaskType.hashFile = none ∧
    (∀ st : WorkerDb, processNoBranchTask st =
      { fileIndex := st.fileIndex, sourceUrls := st.sourceUrls,
        taskStatus := TaskStatus.completed }) ∧
    (let row : SourceRow :=
       { url := "https://example.com/m.bin", addedAt := "t0",
         notes := none, filenameHint := none, relpath := some ("a.bin") }
     let idxRow : IndexRow :=
       { side := Side.loc, relpath := "a.bin", size := 10, mtimeNs := 5,
         hash := none, hashComputedAt := none, indexedAt := "t0" }
     let st : WorkerDb :=
       { fileIndex := [idxRow], sourceUrls := [("relpath:a.bin", row)],
         taskStatus := TaskStatus.pending }
     (processNoBranchTask st).fileIndex = st.fileIndex ∧
     (processNoBranchTask st).sourceUrls = [("relpath:a.bin", row)] ∧
     (processNoBranchTask st).taskStatus = TaskStatus.completed ∧
     migrateRelpathToHash [("relpath:a.bin", row)] "a.bin" "deadbeef" =
       [("deadbeef",
         { url := "https://example.com/m.bin", addedAt := "t0",
           notes := none, filenameHint := none, relpath := none })]) :=
  ⟨rfl, fun _ => rfl, rfl, rfl, rfl, by decide⟩

/-! ## C4: enable_session -/

/-- C4 counterexample: the claim is false as stated — immediately after
`enable_session()` the session can still hold remote tasks left over from
the previous session, because the method does not clear the task list. -/
theorem enable_session_keeps_leftover_tasks :
    (enableSession
      { apiKey := some ("old"), expiresAt := some 100, agentConnected := true,
        agentInfo := [("hostname", "h")], lastHeartbeat := some 50,
        tasks := [{ id := "t1", status := "pending" }] }
      "freshkey" 200 60).tasks ≠ [] := by
  decide

/-- C4 (amended): `enable_session()` generates a fresh bearer key, sets
`expires_at = now + TTL`, and resets the agent info and heartbeat, but it
preserves the existing task list unchanged; tasks are cleared only by
`end_session()` (or expiry, which calls it). -/
theorem enable_session_amended (st : SessionState) (freshKey : String)
    (now ttlMinutes : Nat) :
    (enableSession st freshKey now ttlMinutes).apiKey = some freshKey ∧
    (enableSession st freshKey now ttlMinutes).expiresAt = some (now + 60 * ttlMinutes) ∧
    (enableSession st freshKey now ttlMinutes).agentConnected = false ∧
    (enableSession st freshKey now ttlMinutes).agentInfo = [] ∧
    (enableSession st freshKey now ttlMinutes).lastHeartbeat = none ∧
    (enableSession st freshKey now ttlMinutes).tasks = st.tasks ∧
    (endSession st).tasks = [] :=
  ⟨rfl, rfl, rfl, rfl, rfl, rfl, rfl⟩

/-- Concrete instantiation of the C6 theorem. -/
theorem differ_emits_one_entry_with_spec_status_witness :
    ∃ s, specStatusTable
        (dictGet [{ relpath := "a", size := 1, mtimeNs := 2, hash := some ("h") }] "a")
        (dictGet [] "a") = some s ∧
      ((computeDiff [{ relpath := "a", size := 1, mtimeNs := 2, hash := some ("h") }] []).filter
        (fun e => e.relpath == "a")).map DiffEntry.status = [s] :=
  differ_emits_one_entry_with_spec_status _ _ _ (by decide)

/-! ## C5: asset resolver -/

/-- C5 counterexample: the claim is false as stated — a relpath-keyed
SourceMapping for the requested relpath does not appear in the resolver's
source list (`resolve_asset` only consults the hash-keyed registry row and
the two stream locations). -/
theorem resolve_asset_omits_relpath_mapping :
    resolveAsset
      [("relpath:a.bin",
        { url := "https://example.com/m.bin", addedAt := "t0", notes := none,
          filenameHint := none, relpath := some ("a.bin") })]
      [] [] ("https://base") ("deadbeef") (some ("a.bin")) = [] := by
  decide

/-- C5 (amended): the resolver returns, in order, (1) the SourceMapping
keyed by the given hash (type `web`, priority 1), (2) a local stream URL
when Local has the file (priority 2), (3) a lake stream URL when Lake has it
(priority 3).  Relpath-keyed SourceMappings are never consulted: adding any
registry row whose key differs from the queried hash — in particular any
`relpath:`-keyed row, since those keys are never pure hashes — leaves the
result unchanged. -/
theorem resolve_asset_amended (db : SourceTable) (localFs lakeFs : List String)
    (baseUrl hash : String) (rp : Option String) (k : String) (row : SourceRow)
    (hk : k ≠ hash) :
    resolveAsset ((k, row) :: db) localFs lakeFs baseUrl hash rp =
      resolveAsset db localFs lakeFs baseUrl hash rp ∧
    List.Pairwise (fun a b => a.priority < b.priority)
      (resolveAsset db localFs lakeFs baseUrl hash rp) ∧
    (∀ m, getSource db hash = some m →
      (resolveAsset db localFs lakeFs baseUrl hash rp).head? =
        some (AssetSource.mk m.url ("web") 1)) := by
  refine ⟨?_, ?_, ?_⟩
  · unfold resolveAsset
    have hbeq : (k == hash) = false := beq_eq_false_iff_ne.mpr hk
    have hget : getSource ((k, row) :: db) hash = getSource db hash := by
      unfold getSource
      simp [List.find?_cons, hbeq]
    rw [hget]
  · unfold resolveAsset
    cases getSource db hash with
    | none =>
      cases rp with
      | none => simp
      | some r =>
        by_cases h1 : r ∈ localFs <;> by_cases h2 : r ∈ lakeFs <;>
          simp [h1, h2]
    | some m =>
      cases rp with
      | none => simp
      | some r =>
        by_cases h1 : r ∈ localFs <;> by_cases h2 : r ∈ lakeFs <;>
          simp [h1, h2]
  · intro m hm
    unfold resolveAsset
    rw [hm]
    rfl

/-- Concrete instantiation of the amended C5 theorem. -/
theorem resolve_asset_amended_witness :
    (let row : SourceRow :=
       { url := "https://example.com/m.bin", addedAt := "t0", notes := none,
         filenameHint := none, relpath := some ("a.bin") }
     let db : SourceTable := [("deadbeef", row)]
     resolveAsset (("relpath:a.bin", row) :: db) [] [] ("https://base")
        ("deadbeef") (some ("a.bin")) =
      resolveAsset db [] [] ("https://base") ("deadbeef") (some ("a.bin")) ∧
     List.Pairwise (fun a b => a.priority < b.priority)
       (resolveAsset db [] [] ("https://base") ("deadbeef") (some ("a.bin"))) ∧
     (∀ m, getSource db ("deadbeef") = some m →
       (resolveAsset db [] [] ("https://base") ("deadbeef") (some ("a.bin"))).head? =
         some (AssetSource.mk m.url ("web") 1))) :=
  resolve_asset_amended _ [] [] _ _ _ _ _ (by decide)

/-! ## C3: mirror planning -/

theorem bothStatus_ne_only (lf kf : FileRec) :
    bothStatus lf kf ≠ DiffStatus.onlyLocal ∧ bothStatus lf kf ≠ DiffStatus.onlyLake := by
  unfold bothStatus
  constructor <;>
    (cases lf.hash <;> cases kf.hash <;> repeat' split) <;> simp

theorem computeDiff_self_no_only (v : List FileRec) :
    ∀ e ∈ computeDiff v v,
      e.status ≠ DiffStatus.onlyLocal ∧ e.status ≠ DiffStatus.onlyLake := by
  intro e he
  unfold computeDiff at he
  rcases List.mem_filterMap.mp he with ⟨rp, _, hent⟩
  cases hd : dictGet v rp with
  | none =>
    rw [hd] at hent
    simp [entryFor] at hent
  | some f =>
    rw [hd] at hent
    simp only [entryFor, Option.some_inj] at hent
    rw [← hent]
    exact bothStatus_ne_only f f

/-- C3 (spec-modelled): for identical source and destination folder views
the mirror plan's copies and deletes lists are both empty, and
`mirror/execute` enqueues exactly the planned tasks (all copies followed by
all deletes) in FIFO order onto the queue. -/
theorem mirror_plan_identical_views (srcView dstView : List FileRec)
    (queue : List MirrorTask) (hid : srcView = dstView) :
    (createMirrorPlan srcView dstView).copies = [] ∧
    (createMirrorPlan srcView dstView).deletes = [] ∧
    executeMirrorPlan (createMirrorPlan srcView dstView) false queue =
      queue ++
        (createMirrorPlan srcView dstView).copies.map
          (fun c => MirrorTask.copyTask c.relpath) ++
        (createMirrorPlan srcView dstView).deletes.map
          (fun d => MirrorTask.deleteTask d.relpath) := by
  subst hid
  have hno := computeDiff_self_no_only srcView
  have hc : (computeDiff srcView srcView).filter
      (fun e => e.status = DiffStatus.onlyLocal) = [] := by
    rw [List.filter_eq_nil_iff]
    intro a ha
    simp only [decide_eq_true_eq]
    exact (hno a ha).1
  have hd : (computeDiff srcView srcView).filter
      (fun e => e.status = DiffStatus.onlyLake) = [] := by
    rw [List.filter_eq_nil_iff]
    intro a ha
    simp only [decide_eq_true_eq]
    exact (hno a ha).2
  refine ⟨?_, ?_, ?_⟩
  · show ((computeDiff srcView srcView).filter
      (fun e => e.status = DiffStatus.onlyLocal)).map _ = []
    rw [hc]
    rfl
  · show ((computeDiff srcView srcView).filter
      (fun e => e.status = DiffStatus.onlyLake)).map _ = []
    rw [hd]
    rfl
  · rfl

/-- Concrete instantiation of the C3 theorem. -/
theorem mirror_plan_identical_views_witness :
    (let v : List FileRec := [{ relpath := "m.bin", size := 7, mtimeNs := 3,
                                hash := some ("aa") }]
     (createMirrorPlan v v).copies = [] ∧
     (createMirrorPlan v v).deletes = [] ∧
     executeMirrorPlan (createMirrorPlan v v) false [] =
       [] ++ (createMirrorPlan v v).copies.map (fun c => MirrorTask.copyTask c.relpath) ++
         (createMirrorPlan v v).deletes.map (fun d => MirrorTask.deleteTask d.relpath)) :=
  mirror_plan_identical_views _ _ [] rfl

/-! ## C8: fast-mode digest -/

theorem headTailDigestInput_eq (content : List Nat) :
    headTailDigestInput content =
      if content.length < 8 * 1024 * 1024 then content
      else content.take fourMiB ++ content.drop (content.length - fourMiB) := by
  have hf : fourMiB = 4194304 := rfl
  have hlen4 : (content.take fourMiB).length = min fourMiB content.length :=
    List.length_take _ _
  by_cases h1 : content.length ≤ fourMiB
  · have htake : content.take fourMiB = content := List.take_of_length_le h1
    have hcond : ¬ (content.length > (content.take fourMiB).length) := by
      rw [htake]
      exact lt_irrefl _
    have hsmall : content.length < 8 * 1024 * 1024 := by omega
    simp only [headTailDigestInput]
    rw [if_neg hcond, htake, if_pos hsmall]
  · push_neg at h1
    have hlt : (content.take fourMiB).length = fourMiB := by
      rw [hlen4]
      exact min_eq_left (le_of_lt h1)
    have hcond : content.length > (content.take fourMiB).length := by
      rw [hlt]
      exact h1
    simp only [headTailDigestInput]
    rw [if_pos hcond, hlt]
    by_cases h2 : content.length < 8 * 1024 * 1024
    · have hmax : max fourMiB (content.length - fourMiB) = fourMiB :=
        max_eq_left (by omega)
      rw [hmax]
      have htakedrop : (content.drop fourMiB).take fourMiB = content.drop fourMiB :=
        List.take_of_length_le (by rw [List.length_drop]; omega)
      rw [htakedrop, List.take_append_drop, if_pos h2]
    · have hmax : max fourMiB (content.length - fourMiB) = content.length - fourMiB :=
        max_eq_right (by omega)
      rw [hmax]
      have htd : (content.drop (content.length - fourMiB)).take fourMiB =
          content.drop (content.length - fourMiB) :=
        List.take_of_length_le (by rw [List.length_drop]; omega)
      rw [htd, if_neg h2]

/-- C8: the fast-mode digest input is the whole file when the file is
smaller than 8 MiB (first 4 MiB plus the remaining tail, which for files
between 4 MiB and 8 MiB is again the whole file), and the disjoint first
4 MiB plus last 4 MiB otherwise; the returned value is the digest prefixed
with `fast:`. -/
theorem fast_hash_digests_head_plus_tail (digest : List Nat → String)
    (content : List Nat) :
    getHashFastValue digest content =
      "fast:" ++ digest (headTailDigestInput content) ∧
    headTailDigestInput content =
      (if content.length < 8 * 1024 * 1024 then content
       else content.take fourMiB ++ content.drop (content.length - fourMiB)) :=
  ⟨rfl, headTailDigestInput_eq content⟩

/-! ## C7: downloader retry loop -/

/-- C7: a per-read stall timeout or connection reset never terminates a
download job — the retry loop records the error, keeps the partial file at
`temp_path` (so the next attempt resumes from its current size) and
continues with the remaining attempts — whereas any HTTP response with
status ≥ 400 marks the job failed terminally: the loop returns at once,
ignoring every later network event. -/
theorem downloader_stall_retries_http_ge_400_terminal (job : DlJob)
    (evs : List NetEvent) (hnc : job.cancelled = false) :
    (∀ ev, (ev = NetEvent.readTimeout ∨ ev = NetEvent.connectionReset) →
      runJob job (ev :: evs) = runJob (runAttempt job ev).1 evs ∧
      (runAttempt job ev).1.tempBytes = job.tempBytes ∧
      (runAttempt job ev).1.status = "running" ∧
      (runAttempt job ev).1.cancelled = false ∧
      resumeOffset (runAttempt job ev).1 = resumeOffset job) ∧
    (∀ statusCode body contentLength, statusCode ≥ 400 →
      runJob job (NetEvent.response statusCode body contentLength :: evs) =
        { job with
          attempts := job.attempts + 1,
          status := "failed",
          errorMessage := some ("HTTP " ++ toString statusCode) }) := by
  constructor
  · intro ev hev
    rcases hev with h | h <;> subst h <;>
      exact ⟨by simp [runJob, runAttempt, hnc], rfl, rfl, hnc, rfl⟩
  · intro statusCode body contentLength hsc
    simp [runJob, runAttempt, hnc, hsc]

/-- Concrete instantiation of the C7 theorem. -/
theorem downloader_stall_retries_http_ge_400_terminal_witness :
    runJob sampleDlJob [NetEvent.readTimeout] =
      (runAttempt sampleDlJob NetEvent.readTimeout).1 ∧
    runJob sampleDlJob [NetEvent.response 404 [] none] =
      { sampleDlJob with
        attempts := sampleDlJob.attempts + 1,
        status := "failed",
        errorMessage := some ("HTTP " ++ toString 404) } :=
  ⟨((downloader_stall_retries_http_ge_400_terminal sampleDlJob [] rfl).1
      NetEvent.readTimeout (Or.inl rfl)).1,
   (downloader_stall_retries_http_ge_400_terminal sampleDlJob [] rfl).2
      404 [] none (by decide)⟩

/-! ## C9: at most one running queue row -/

theorem map_id_of_pointwise (rows : List QRow) (f : QRow → QRow)
    (hf : ∀ r, (f r).id = r.id) :
    (rows.map f).map QRow.id = rows.map QRow.id := by
  induction rows with
  | nil => rfl
  | cons r rs ih =>
    simp only [List.map_cons, hf r, ih]

theorem setStatus_map_id (rows : List QRow) (id : Nat) (st : TaskStatus) :
    (setStatus rows id st).map QRow.id = rows.map QRow.id := by
  apply map_id_of_pointwise
  intro r
  by_cases h : r.id = id <;> simp [h]

theorem nodup_all_eq_length_le_one {l : List Nat} (i : Nat) (hnd : l.Nodup)
    (hall : ∀ a ∈ l, a = i) : l.length ≤ 1 := by
  cases l with
  | nil => simp
  | cons a as =>
    cases as with
    | nil => simp
    | cons b bs =>
      exfalso
      have ha := hall a (by simp)
      have hb := hall b (by simp)
      rw [List.nodup_cons] at hnd
      refine hnd.1 ?_
      rw [ha, hb]
      simp

theorem runningCount_le_one_of_inv {s : QState} (h : QInv s) :
    runningCount s.rows ≤ 1 := by
  unfold runningCount
  rcases h with ⟨hnd, hrun⟩
  cases hc : s.current with
  | none =>
    have hnil : s.rows.filter (fun r => r.status = TaskStatus.running) = [] := by
      rw [List.filter_eq_nil_iff]
      intro r hr
      simp only [decide_eq_true_eq]
      intro hst
      rw [hrun r hr hst] at hc
      cases hc
    rw [hnil]
    simp
  | some i =>
    rw [← List.length_map (s.rows.filter (fun r => r.status = TaskStatus.running)) QRow.id]
    apply nodup_all_eq_length_le_one i
    · exact List.Nodup.sublist (List.Sublist.map _ (List.filter_sublist _)) hnd
    · intro a ha
      rcases List.mem_map.mp ha with ⟨r, hr, hid⟩
      have hst : r.status = TaskStatus.running := by
        have := List.of_mem_filter hr
        simpa using this
      have := hrun r (List.mem_of_mem_filter hr) hst
      rw [hc] at this
      cases this
      exact hid.symm

theorem qstep_preserves_inv {s s' : QState} (hinv : QInv s) (hstep : QStep s s') :
    QInv s' := by
  rcases hinv with ⟨hnd, hrun⟩
  cases hstep with
  | enqueue id hfresh =>
    constructor
    · simp only [List.map_append, List.map_cons, List.map_nil]
      rw [List.nodup_append]
      refine ⟨hnd, List.nodup_singleton id, ?_⟩
      intro a ha hb
      simp only [List.mem_singleton] at hb
      rw [hb] at ha
      exact hfresh ha
    · intro r hr hst
      rcases List.mem_append.mp hr with h | h
      · exact hrun r h hst
      · simp only [List.mem_singleton] at h
        rw [h] at hst
        cases hst
  | cancel id r0 hr0 hid hst0 =>
    refine ⟨by rw [setStatus_map_id]; exact hnd, ?_⟩
    intro r hr hst
    rcases List.mem_map.mp hr with ⟨r1, hr1, hf⟩
    by_cases h : r1.id = id
    · rw [if_pos h] at hf
      rw [← hf] at hst
      cases hst
    · rw [if_neg h] at hf
      rw [← hf] at hst ⊢
      exact hrun r1 hr1 hst
  | cancelAll =>
    refine ⟨?_, ?_⟩
    · rw [map_id_of_pointwise]
      · exact hnd
      · intro r
        by_cases h : r.status = TaskStatus.pending ∨ r.status = TaskStatus.running <;>
          simp [h]
    · intro r hr hst
      rcases List.mem_map.mp hr with ⟨r1, hr1, hf⟩
      by_cases h : r1.status = TaskStatus.pending ∨ r1.status = TaskStatus.running
      · rw [if_pos h] at hf
        rw [← hf] at hst
        cases hst
      · rw [if_neg h] at hf
        rw [← hf] at hst
        exact absurd (Or.inr hst) h
  | remove id =>
    refine ⟨?_, ?_⟩
    · exact List.Nodup.sublist (List.Sublist.map _ (List.filter_sublist _)) hnd
    · intro r hr hst
      exact hrun r (List.mem_of_mem_filter hr) hst
  | workerPick r0 hr0 hidle hpending =>
    refine ⟨by rw [setStatus_map_id]; exact hnd, ?_⟩
    intro r hr hst
    rcases List.mem_map.mp hr with ⟨r1, hr1, hf⟩
    by_cases h : r1.id = r0.id
    · have : r.id = r1.id := by
        rw [← hf]
        by_cases h2 : r1.id = r0.id <;> simp [h2]
      rw [this, h]
    · rw [if_neg h] at hf
      rw [← hf] at hst
      have := hrun r1 hr1 hst
      rw [hidle] at this
      cases this
  | workerFinish id final hbusy hfinal =>
    refine ⟨by rw [setStatus_map_id]; exact hnd, ?_⟩
    intro r hr hst
    exfalso
    rcases List.mem_map.mp hr with ⟨r1, hr1, hf⟩
    by_cases h : r1.id = id
    · rw [if_pos h] at hf
      rw [← hf] at hst
      simp only at hst
      rcases hfinal with h1 | h1 | h1 <;> rw [h1] at hst <;> cases hst
    · rw [if_neg h] at hf
      rw [← hf] at hst
      have := hrun r1 hr1 hst
      rw [hbusy] at this
      cases this
      exact h rfl

theorem qreachable_inv {s : QState} (h : QReachable s) : QInv s := by
  induction h with
  | startup rows hids =>
    constructor
    · unfold startupReset
      rw [map_id_of_pointwise]
      · exact hids
      · intro r
        by_cases h : r.status = TaskStatus.running <;> simp [h]
    · intro r hr hst
      unfold startupReset at hr
      rcases List.mem_map.mp hr with ⟨r1, hr1, hf⟩
      by_cases h : r1.status = TaskStatus.running
      · rw [if_pos h] at hf
        rw [← hf] at hst
        cases hst
      · rw [if_neg h] at hf
        rw [← hf] at hst
        exact absurd hst h
  | step s s' hs hstep ih => exact qstep_preserves_inv ih hstep

/-- C9: in every reachable queue state — starting from the startup reset of
orphan `running` rows and closed under enqueueing, UI cancellation, removal,
and the single worker picking a pending row and driving it to a terminal
status — at most one queue row has `status = running`. -/
theorem queue_at_most_one_running (s : QState) (h : QReachable s) :
    runningCount s.rows ≤ 1 :=
  runningCount_le_one_of_inv (qreachable_inv h)

/-- Concrete instantiation of the C9 theorem. -/
theorem queue_at_most_one_running_witness :
    runningCount (startupReset [{ id := 1, status := TaskStatus.running }]).rows ≤ 1 :=
  queue_at_most_one_running _ (QReachable.startup _ (by decide))

/-! ## C10: dedupe execute -/

theorem foldl_congr_step {beta : Type} (g h : DedupeResult → beta → DedupeResult)
    (hgh : ∀ acc b, g acc b = h acc b) :
    ∀ (l : List beta) (acc : DedupeResult), l.foldl g acc = l.foldl h acc := by
  intro l
  induction l with
  | nil => intro acc; rfl
  | cons b bs ih =>
    intro acc
    rw [List.foldl_cons, List.foldl_cons, hgh acc b]
    exact ih (h acc b)

theorem dedupeStep_keep_irrelevant (ks : List String) (acc : DedupeResult)
    (f : DedupeFileRow) (b : Bool) :
    dedupeStep ks acc { f with keep := b } = dedupeStep ks acc f := by
  cases f
  rfl

theorem unlinkFile_some_subset {disk : List (Side × String)} {side : Side}
    {relpath : String} {disk' : List (Side × String)}
    (h : unlinkFile disk side relpath = some disk') : disk' ⊆ disk := by
  unfold unlinkFile at h
  split at h
  · cases h
    intro a ha
    exact (List.mem_filter.mp ha).1
  · cases h

theorem dedupeStep_disk_subset (ks : List String) (acc : DedupeResult)
    (f : DedupeFileRow) : (dedupeStep ks acc f).disk ⊆ acc.disk := by
  unfold dedupeStep
  split
  · exact List.Subset.refl _
  · cases hu : unlinkFile acc.disk f.side f.relpath with
    | some disk' =>
      simp only [hu]
      exact unlinkFile_some_subset hu
    | none =>
      simp only [hu]
      exact List.Subset.refl _

theorem dedupeFold_disk_subset (ks : List String) :
    ∀ (files : List DedupeFileRow) (acc : DedupeResult),
      (files.foldl (dedupeStep ks) acc).disk ⊆ acc.disk := by
  intro files
  induction files with
  | nil =>
    intro acc
    exact List.Subset.refl _
  | cons f fs ih =>
    intro acc a ha
    exact dedupeStep_disk_subset ks acc f (ih (dedupeStep ks acc f) ha)

theorem dedupeStep_removes (ks : List String) (acc : DedupeResult)
    (f : DedupeFileRow) (h : f.relpath ∉ ks) :
    (f.side, f.relpath) ∉ (dedupeStep ks acc f).disk := by
  unfold dedupeStep
  rw [if_neg h]
  unfold unlinkFile
  by_cases hm : (f.side, f.relpath) ∈ acc.disk
  · rw [if_pos hm]
    intro hmem
    simp only at hmem
    have := (List.mem_filter.mp hmem).2
    simp at this
  · rw [if_neg hm]
    exact hm

theorem dedupeStep_count (ks : List String) (acc : DedupeResult)
    (f : DedupeFileRow) (h : f.relpath ∉ ks) :
    (dedupeStep ks acc f).deleted + (dedupeStep ks acc f).errors.length =
      acc.deleted + acc.errors.length + 1 := by
  unfold dedupeStep
  rw [if_neg h]
  cases unlinkFile acc.disk f.side f.relpath with
  | some disk' => simp only; omega
  | none =>
    simp only [List.length_append, List.length_singleton]
    omega

theorem dedupeStep_kept (ks : List String) (acc : DedupeResult)
    (f : DedupeFileRow) (h : f.relpath ∈ ks) :
    dedupeStep ks acc f = acc := by
  unfold dedupeStep
  rw [if_pos h]

theorem dedupeFold_count (ks : List String) :
    ∀ (files : List DedupeFileRow) (acc : DedupeResult),
      (files.foldl (dedupeStep ks) acc).deleted +
          (files.foldl (dedupeStep ks) acc).errors.length =
        acc.deleted + acc.errors.length +
          (files.filter (fun f => f.relpath ∉ ks)).length := by
  intro files
  induction files with
  | nil => intro acc; simp
  | cons f fs ih =>
    intro acc
    rw [List.foldl_cons, ih (dedupeStep ks acc f)]
    by_cases h : f.relpath ∈ ks
    · rw [dedupeStep_kept ks acc f h,
        List.filter_cons_of_neg (by simp [h])]
    · rw [dedupeStep_count ks acc f h,
        List.filter_cons_of_pos (by simp [h])]
      simp only [List.length_cons]
      omega

/-- C10 (implicit): `DedupeService.execute` ignores both the stored `keep`
flags and the selections' group ids — only the set of `keep_relpath` values
matters — and it deletes from disk every file recorded in any group of the
scan whose relpath is not among the supplied `keep_relpath` values; with an
empty selections list every recorded file (the keep-flagged one included) is
deleted or reported as an error, one of the two per file. -/
theorem dedupe_execute_ignores_keep_flags (files : List DedupeFileRow)
    (sel : List DedupeSelection) (disk : List (Side × String)) :
    (∀ flags : DedupeFileRow → Bool,
      dedupeExecute (files.map (fun f => { f with keep := flags f })) sel disk =
        dedupeExecute files sel disk) ∧
    (∀ gids : DedupeSelection → Nat,
      dedupeExecute files (sel.map (fun x => { x with groupId := gids x })) disk =
        dedupeExecute files sel disk) ∧
    (∀ f ∈ files, f.relpath ∉ sel.map DedupeSelection.keepRelpath →
      (f.side, f.relpath) ∉ (dedupeExecute files sel disk).disk) ∧
    ((dedupeExecute files [] disk).deleted +
        (dedupeExecute files [] disk).errors.length = files.length) := by
  refine ⟨?_, ?_, ?_, ?_⟩
  · intro flags
    unfold dedupeExecute
    rw [List.foldl_map]
    apply foldl_congr_step
    intro acc f
    exact dedupeStep_keep_irrelevant _ acc f (flags f)
  · intro gids
    unfold dedupeExecute
    have hmap : (sel.map (fun x => { x with groupId := gids x })).map
        DedupeSelection.keepRelpath = sel.map DedupeSelection.keepRelpath := by
      rw [List.map_map]
      apply List.map_congr_left
      intro x _
      rfl
    rw [hmap]
  · intro f hf hnk
    unfold dedupeExecute
    rcases List.append_of_mem hf with ⟨pre, post, hsplit⟩
    rw [hsplit, List.foldl_append, List.foldl_cons]
    intro hmem
    have hsub := dedupeFold_disk_subset (sel.map DedupeSelection.keepRelpath) post
      (dedupeStep (sel.map DedupeSelection.keepRelpath)
        (pre.foldl (dedupeStep (sel.map DedupeSelection.keepRelpath))
          { deleted := 0, freedBytes := 0, errors := [], disk := disk }) f)
    exact dedupeStep_removes _ _ f hnk (hsub hmem)
  · unfold dedupeExecute
    rw [dedupeFold_count]
    have : files.filter (fun f => f.relpath ∉ ([] : List DedupeSelection).map
        DedupeSelection.keepRelpath) = files := by
      rw [List.filter_eq_self]
      intro a _
      simp
    rw [this]
    simp

/-- Concrete instantiation of the C10 theorem. -/
theorem dedupe_execute_ignores_keep_flags_witness :
    (Side.lake, ("q.bin")) ∉
      (dedupeExecute [{ side := Side.lake, relpath := "q.bin", size := 4, keep := true }]
        [] [(Side.lake, ("q.bin"))]).disk ∧
    (dedupeExecute [{ side := Side.lake, relpath := "q.bin", size := 4, keep := true }]
        [] [(Side.lake, ("q.bin"))]).deleted +
      (dedupeExecute [{ side := Side.lake, relpath := "q.bin", size := 4, keep := true }]
        [] [(Side.lake, ("q.bin"))]).errors.length = 1 :=
  ⟨(dedupe_execute_ignores_keep_flags
      [{ side := Side.lake, relpath := "q.bin", size := 4, keep := true }] []
      [(Side.lake, ("q.bin"))]).2.2.1
      { side := Side.lake, relpath := "q.bin", size := 4, keep := true }
      (by decide) (by decide),
   (dedupe_execute_ignores_keep_flags
      [{ side := Side.lake, relpath := "q.bin", size := 4, keep := true }] []
      [(Side.lake, ("q.bin"))]).2.2.2⟩

end MM
